import Mathlib

/-!
Shallow embedding of the useEventBus module (packages/core/useEventBus/index.ts
together with the module-level registry from its internal file).

Modelling choices:
* Bus identifiers are natural numbers.  Event names and payloads are values of
  type Option Nat, with none standing for the JavaScript undefined value; this
  matters because emit may be called with an omitted event name, and because
  the buggy lookup handlerMap.get(key) in on compares the bus identifier with
  event names, so both must live in one value space (a bus identifier k is the
  value some k).
* A listener or handler function value is a term of the inductive type Fn.
  Fn.plain n is an ordinary caller-supplied function with identity n (the
  source removes listeners by reference equality of the function value;
  distinct ids model distinct function objects).  Fn.onceG key f and
  Fn.onceS key ev f are the adapter closures created by once: each stores the
  bus key (and event name) it captured and the wrapped original, and on
  invocation first removes itself via the matching off call shape and then
  invokes the original with the arguments it received, exactly as the source
  adapters do.
* The registry (the module-level events Map) is an association list with
  JavaScript Map semantics: get returns the first (unique) entry, set replaces
  the value in place or appends a fresh entry at the end, delete removes the
  entry.  Invoking a function appends a record (id, argument list) to a trace;
  a scoped handler receives [payload], a global listener receives
  [event, payload], matching the call shapes v(payload) and v(event, payload)
  in emit.
* emit follows the source: it returns immediately when no entry exists; then
  handlerMap.get(event)?.forEach(v => v(payload)) followed by
  listeners.forEach(v => v(event, payload)).  forEach is modelled with its
  JavaScript mechanics: the iteration count is the length of the sequence when
  the forEach starts, and at each index the current sequence is re-read (an
  index past the current length is skipped), so splices performed by a once
  adapter during the walk are observed, as with the live arrays of the source.
  The sequences are re-read through the registry at the bus key, which agrees
  with the captured record of the source in every state where the entry is not
  deleted in mid-emit while elements remain to visit.
-/

namespace UseEventBus

/-- Function values that can be registered on a bus: plain caller-supplied
functions identified by a number, and the two adapter closures produced by
once, which remember the bus key (and event name) they captured and wrap the
original function. -/
inductive Fn : Type where
  | plain : Nat → Fn
  | onceG : Nat → Fn → Fn
  | onceS : Nat → Option Nat → Fn → Fn
deriving DecidableEq, Repr

/-- The per-identifier state stored in the registry: the Listeners record of
the source, with the ordered global listener array and the Map from event name
to the ordered array of event-free handlers. -/
structure Entry : Type where
  listeners : List Fn
  handlerMap : List (Option Nat × List Fn)
deriving DecidableEq, Repr

/-- Whole-model state: the module-level events Map from bus identifier to its
Entry, plus the observation trace of performed calls; a trace element
(n, argv) records that the plain function n was called with argument list
argv. -/
structure St : Type where
  events : List (Nat × Entry)
  trace : List (Nat × List (Option Nat))
deriving DecidableEq, Repr

/-- Map.get: first value stored under an equal key, if any. -/
def agets {α β : Type} [DecidableEq α] : List (α × β) → α → Option β
  | [], _ => none
  | (a, b) :: l, x => if a = x then some b else agets l x

/-- Map.set: replace the value under an existing key in place, otherwise
append a fresh entry at the end. -/
def aset {α β : Type} [DecidableEq α] : List (α × β) → α → β → List (α × β)
  | [], x, v => [(x, v)]
  | (a, b) :: l, x, v => if a = x then (x, v) :: l else (a, b) :: aset l x v

/-- Map.delete: remove the entry stored under the key (a no-op when absent). -/
def adel {α β : Type} [DecidableEq α] : List (α × β) → α → List (α × β)
  | [], _ => []
  | (a, b) :: l, x => if a = x then adel l x else (a, b) :: adel l x

/-- Array.prototype.indexOf followed by splice(index, 1): drop the first
element equal to the argument, keep the list unchanged when absent. -/
def removeFirst : List Fn → Fn → List Fn
  | [], _ => []
  | x :: l, a => if x = a then l else x :: removeFirst l a

/-- The empty initial state: a fresh events Map and an empty trace. -/
def init : St := ⟨[], []⟩

/-- Call shape on(listener) of the source: read the record under the key (or
a fresh one), push the listener onto its listeners array, store the record
back under the key. -/
def on1 (k : Nat) (l : Fn) (s : St) : St :=
  let rec0 := (agets s.events k).getD ⟨[], []⟩
  { s with events := aset s.events k { rec0 with listeners := rec0.listeners ++ [l] } }

/-- Call shape on(event, handler) of the source, faithfully including its
lookup of the handler array under the bus key: the source computes
handlerMap.get(key) with a fresh-array fallback, pushes the handler onto that
array object in place, and then stores the array under event.  When the bus
key some k is present in the map and differs from event, the in-place push is
visible under the bus key as well, which the model reproduces with an extra
aset at some k. -/
def on2 (k : Nat) (ev : Option Nat) (h : Fn) (s : St) : St :=
  let rec0 := (agets s.events k).getD ⟨[], []⟩
  let hs := ((agets rec0.handlerMap (some k)).getD []) ++ [h]
  let hm1 := if (agets rec0.handlerMap (some k)).isSome ∧ some k ≠ ev then
    aset rec0.handlerMap (some k) hs else rec0.handlerMap
  { s with events := aset s.events k { rec0 with handlerMap := aset hm1 ev hs } }

/-- Call shape off(listener) of the source: no entry means no-op; otherwise
splice out the first reference-equal match, and when the listeners array is
then empty delete the whole entry from the registry. -/
def off1 (k : Nat) (l : Fn) (s : St) : St :=
  match agets s.events k with
  | none => s
  | some rec0 =>
    let ls := removeFirst rec0.listeners l
    if ls.isEmpty then { s with events := adel s.events k }
    else { s with events := aset s.events k { rec0 with listeners := ls } }

/-- Call shape off(event, handler) of the source: no entry means no-op;
otherwise take the array under event (a fresh one when absent, in which case
the splice is invisible in the map), splice out the first match, delete the
event mapping when the array is then empty, and delete the whole entry when
the handler map is then empty. -/
def off2 (k : Nat) (ev : Option Nat) (h : Fn) (s : St) : St :=
  match agets s.events k with
  | none => s
  | some rec0 =>
    let present := (agets rec0.handlerMap ev).isSome
    let hs := removeFirst ((agets rec0.handlerMap ev).getD []) h
    let hm1 := if present then aset rec0.handlerMap ev hs else rec0.handlerMap
    let hm2 := if hs.isEmpty then adel hm1 ev else hm1
    if hm2.isEmpty then { s with events := adel s.events k }
    else { s with events := aset s.events k { rec0 with handlerMap := hm2 } }

/-- reset of the source: unconditionally delete the entry under the key. -/
def reset (k : Nat) (s : St) : St := { s with events := adel s.events k }

/-- Invocation of a function value: a plain function records the call in the
trace; a once adapter first removes itself via the matching off call shape on
its captured bus key and then invokes the wrapped original with the same
argument list, exactly like the closures built inside once. -/
def invoke : Fn → List (Option Nat) → St → St
  | .plain n, argv, s => { s with trace := s.trace ++ [(n, argv)] }
  | .onceG k f, argv, s => invoke f argv (off1 k (.onceG k f) s)
  | .onceS k ev f, argv, s => invoke f argv (off2 k ev (.onceS k ev f) s)

/-- Current handler array for an event name on a bus, read through the
registry (empty when the entry or the event mapping is absent). -/
def handlersAt (s : St) (k : Nat) (ev : Option Nat) : List Fn :=
  match agets s.events k with
  | none => []
  | some r => (agets r.handlerMap ev).getD []

/-- Current global listener array of a bus, read through the registry. -/
def listenersAt (s : St) (k : Nat) : List Fn :=
  match agets s.events k with
  | none => []
  | some r => r.listeners

/-- First emit phase, the forEach over the handler array of the emitted event:
fuel is the array length when the forEach started; at each index the current
array is re-read and the element, when still present, is invoked with the
payload alone. -/
def emitP1 (k : Nat) (ev p : Option Nat) : Nat → Nat → St → St
  | 0, _, s => s
  | n + 1, i, s =>
    let arr := handlersAt s k ev
    let s1 := if hlt : i < arr.length then invoke (arr.get ⟨i, hlt⟩) [p] s else s
    emitP1 k ev p n (i + 1) s1

/-- Second emit phase, the forEach over the global listener array: same
mechanics, each surviving element is invoked with the event name and the
payload. -/
def emitP2 (k : Nat) (ev p : Option Nat) : Nat → Nat → St → St
  | 0, _, s => s
  | n + 1, i, s =>
    let arr := listenersAt s k
    let s1 := if hlt : i < arr.length then invoke (arr.get ⟨i, hlt⟩) [ev, p] s else s
    emitP2 k ev p n (i + 1) s1

/-- emit of the source: no entry means no-op; otherwise run the optional
forEach over the handlers stored under the event name (skipped entirely when
no array is stored there), then the forEach over the global listeners, whose
length is read when that second forEach starts. -/
def emit (k : Nat) (ev p : Option Nat) (s : St) : St :=
  match agets s.events k with
  | none => s
  | some rec0 =>
    let s1 : St := match agets rec0.handlerMap ev with
      | none => s
      | some hs => emitP1 k ev p hs.length 0 s
    emitP2 k ev p (listenersAt s1 k).length 0 s1

/-- Call shape once(listener) of the source: build the self-removing adapter
capturing the bus key and register it through on. -/
def once1 (k : Nat) (f : Fn) (s : St) : St := on1 k (.onceG k f) s

/-- Call shape once(event, handler) of the source: build the self-removing
adapter capturing the bus key and the event name and register it through
on(event, adapter). -/
def once2 (k : Nat) (ev : Option Nat) (f : Fn) (s : St) : St :=
  on2 k ev (.onceS k ev f) s

/-- Run a sequence of emit calls (event name, payload pairs) on one bus. -/
def runEmits (k : Nat) : List (Option Nat × Option Nat) → St → St
  | [], s => s
  | (ev, p) :: es, s => runEmits k es (emit k ev p s)

/-- Number of recorded invocations of the plain function n in the trace. -/
def traceCount (n : Nat) (s : St) : Nat :=
  (s.trace.filter (fun c => decide (c.1 = n))).length

/-- Trace fragment produced by scoped handlers with the given ids receiving
the payload alone. -/
def scopedCalls (p : Option Nat) (ns : List Nat) : List (Nat × List (Option Nat)) :=
  ns.map (fun n => (n, [p]))

/-- Trace fragment produced by global listeners with the given ids receiving
the event name and the payload. -/
def globalCalls (ev p : Option Nat) (ns : List Nat) : List (Nat × List (Option Nat)) :=
  ns.map (fun n => (n, [ev, p]))

/-- Entry holding only plain functions, described by id lists: global listener
ids ls and a handler map sending each event name of hm to its handler id
list. -/
def plainEntry (ls : List Nat) (hm : List (Option Nat × List Nat)) : Entry :=
  ⟨ls.map Fn.plain, hm.map (fun q => (q.1, q.2.map Fn.plain))⟩

/-- Every once adapter inside the function value stores the bus key k.  In the
source an adapter is only ever registered on the bus whose once created it, so
every function value reachable inside the entry of bus k satisfies this. -/
def wellKeyed (k : Nat) : Fn → Bool
  | .plain _ => true
  | .onceG k2 f => decide (k2 = k) && wellKeyed k f
  | .onceS k2 _ f => decide (k2 = k) && wellKeyed k f

/-- All function values of a handler map are well keyed for k. -/
@[reducible] def hmWK (k : Nat) (hm : List (Option Nat × List Fn)) : Prop :=
  ∀ q ∈ hm, ∀ f ∈ q.2, wellKeyed k f = true

/-- All function values of an entry are well keyed for k. -/
@[reducible] def entryWK (k : Nat) (r : Entry) : Prop :=
  (∀ f ∈ r.listeners, wellKeyed k f = true) ∧ hmWK k r.handlerMap

/-- The entry stored under k, when present, only holds well keyed function
values. -/
@[reducible] def regWK (k : Nat) (s : St) : Prop :=
  ∀ q ∈ s.events, q.1 = k → entryWK k q.2

end UseEventBus

namespace UseEventBus

section AListLemmas

variable {α β γ : Type} [DecidableEq α]

@[simp] lemma agets_nil (x : α) : agets ([] : List (α × β)) x = none := rfl

@[simp] lemma agets_cons (a : α) (b : β) (l : List (α × β)) (x : α) :
    agets ((a, b) :: l) x = if a = x then some b else agets l x := rfl

lemma agets_aset_self (l : List (α × β)) (x : α) (v : β) :
    agets (aset l x v) x = some v := by
  induction l with
  | nil => simp [aset]
  | cons q l ih =>
    obtain ⟨a, b⟩ := q
    by_cases hax : a = x
    · simp [aset, hax]
    · simp [aset, hax, ih]

lemma agets_aset_ne (l : List (α × β)) (x x' : α) (v : β) (hne : x' ≠ x) :
    agets (aset l x v) x' = agets l x' := by
  induction l with
  | nil => simp [aset, hne.symm]
  | cons q l ih =>
    obtain ⟨a, b⟩ := q
    by_cases hax : a = x
    · subst hax
      simp [aset, hne.symm]
    · simp [aset, hax, ih]

lemma agets_adel_self (l : List (α × β)) (x : α) :
    agets (adel l x) x = none := by
  induction l with
  | nil => simp [adel]
  | cons q l ih =>
    obtain ⟨a, b⟩ := q
    by_cases hax : a = x
    · simp [adel, hax, ih]
    · simp [adel, hax, ih]

lemma agets_adel_ne (l : List (α × β)) (x x' : α) (hne : x' ≠ x) :
    agets (adel l x) x' = agets l x' := by
  induction l with
  | nil => simp [adel]
  | cons q l ih =>
    obtain ⟨a, b⟩ := q
    by_cases hax : a = x
    · subst hax
      simp [adel, hne.symm, ih]
    · simp [adel, hax, ih]

lemma adel_of_agets_none (l : List (α × β)) (x : α) (h : agets l x = none) :
    adel l x = l := by
  induction l with
  | nil => simp [adel]
  | cons q l ih =>
    obtain ⟨a, b⟩ := q
    by_cases hax : a = x
    · simp [agets, hax] at h
    · simp [agets, hax] at h
      simp [adel, hax, ih h]

lemma agets_mem (l : List (α × β)) (x : α) (v : β) (h : agets l x = some v) :
    (x, v) ∈ l := by
  induction l with
  | nil => simp [agets] at h
  | cons q l ih =>
    obtain ⟨a, b⟩ := q
    by_cases hax : a = x
    · subst hax
      simp [agets] at h
      simp [h]
    · simp [agets, hax] at h
      exact List.mem_cons_of_mem _ (ih h)

lemma mem_aset (l : List (α × β)) (x : α) (v : β) (q : α × β)
    (h : q ∈ aset l x v) : q ∈ l ∨ q = (x, v) := by
  induction l with
  | nil =>
    simp [aset] at h
    simp [h]
  | cons r l ih =>
    obtain ⟨a, b⟩ := r
    by_cases hax : a = x
    · simp [aset, hax] at h
      rcases h with h | h
      · exact Or.inr h
      · exact Or.inl (List.mem_cons_of_mem _ h)
    · simp [aset, hax] at h
      rcases h with h | h
      · exact Or.inl (by simp [h])
      · rcases ih h with h' | h'
        · exact Or.inl (List.mem_cons_of_mem _ h')
        · exact Or.inr h'

lemma mem_adel (l : List (α × β)) (x : α) (q : α × β) (h : q ∈ adel l x) :
    q ∈ l := by
  induction l with
  | nil => simpa [adel] using h
  | cons r l ih =>
    obtain ⟨a, b⟩ := r
    by_cases hax : a = x
    · simp [adel, hax] at h
      exact List.mem_cons_of_mem _ (ih h)
    · simp [adel, hax] at h
      rcases h with h | h
      · simp [h]
      · exact List.mem_cons_of_mem _ (ih h)

lemma agets_map (g : β → γ) (l : List (α × β)) (x : α) :
    agets (l.map (fun q => (q.1, g q.2))) x = (agets l x).map g := by
  induction l with
  | nil => simp
  | cons q l ih =>
    obtain ⟨a, b⟩ := q
    by_cases hax : a = x
    · simp [agets, hax]
    · simp [agets, hax, ih]

end AListLemmas

lemma removeFirst_subset (l : List Fn) (a f : Fn) (h : f ∈ removeFirst l a) :
    f ∈ l := by
  induction l with
  | nil => simpa [removeFirst] using h
  | cons x l ih =>
    by_cases hx : x = a
    · simp [removeFirst, hx] at h
      exact List.mem_cons_of_mem _ h
    · simp [removeFirst, hx] at h
      rcases h with h | h
      · simp [h]
      · exact List.mem_cons_of_mem _ (ih h)

@[simp] lemma emitP1_zero (k : Nat) (ev p : Option Nat) (i : Nat) (s : St) :
    emitP1 k ev p 0 i s = s := rfl

lemma emitP1_succ (k : Nat) (ev p : Option Nat) (n i : Nat) (s : St) :
    emitP1 k ev p (n + 1) i s =
      emitP1 k ev p n (i + 1)
        (if hlt : i < (handlersAt s k ev).length then
          invoke ((handlersAt s k ev).get ⟨i, hlt⟩) [p] s else s) := rfl

@[simp] lemma emitP2_zero (k : Nat) (ev p : Option Nat) (i : Nat) (s : St) :
    emitP2 k ev p 0 i s = s := rfl

lemma emitP2_succ (k : Nat) (ev p : Option Nat) (n i : Nat) (s : St) :
    emitP2 k ev p (n + 1) i s =
      emitP2 k ev p n (i + 1)
        (if hlt : i < (listenersAt s k).length then
          invoke ((listenersAt s k).get ⟨i, hlt⟩) [ev, p] s else s) := rfl

lemma handlersAt_trace (r : List (Nat × Entry))
    (t t' : List (Nat × List (Option Nat))) (k : Nat) (ev : Option Nat) :
    handlersAt ⟨r, t⟩ k ev = handlersAt ⟨r, t'⟩ k ev := rfl

lemma listenersAt_trace (r : List (Nat × Entry))
    (t t' : List (Nat × List (Option Nat))) (k : Nat) :
    listenersAt ⟨r, t⟩ k = listenersAt ⟨r, t'⟩ k := rfl

@[simp] lemma scopedCalls_nil (p : Option Nat) : scopedCalls p [] = [] := rfl

@[simp] lemma scopedCalls_cons (p : Option Nat) (n : Nat) (ns : List Nat) :
    scopedCalls p (n :: ns) = (n, [p]) :: scopedCalls p ns := rfl

@[simp] lemma globalCalls_nil (ev p : Option Nat) : globalCalls ev p [] = [] := rfl

@[simp] lemma globalCalls_cons (ev p : Option Nat) (n : Nat) (ns : List Nat) :
    globalCalls ev p (n :: ns) = (n, [ev, p]) :: globalCalls ev p ns := rfl

lemma emitP1_plain (k : Nat) (ev p : Option Nat) (hs : List Nat) :
    ∀ (n i : Nat) (r : List (Nat × Entry)) (t : List (Nat × List (Option Nat))),
    handlersAt ⟨r, t⟩ k ev = hs.map Fn.plain → i + n = hs.length →
    emitP1 k ev p n i ⟨r, t⟩ = ⟨r, t ++ scopedCalls p (hs.drop i)⟩ := by
  intro n
  induction n with
  | zero =>
    intro i r t hH hlen
    simp at hlen
    simp [hlen]
  | succ n ih =>
    intro i r t hH hlen
    have hi : i < hs.length := by omega
    have hi' : i < (handlersAt ⟨r, t⟩ k ev).length := by
      rw [hH]; simpa using hi
    rw [emitP1_succ]
    rw [dif_pos hi']
    have hget : (handlersAt ⟨r, t⟩ k ev).get ⟨i, hi'⟩ = Fn.plain (hs.get ⟨i, hi⟩) := by
      have := List.get_of_eq hH ⟨i, hi'⟩
      rw [this]
      simp
    rw [hget]
    show emitP1 k ev p n (i + 1) ⟨r, t ++ [(hs.get ⟨i, hi⟩, [p])]⟩ = _
    rw [ih (i + 1) r (t ++ [(hs.get ⟨i, hi⟩, [p])])
      (by rw [handlersAt_trace r _ t]; exact hH) (by omega)]
    have hdrop : hs.drop i = hs.get ⟨i, hi⟩ :: hs.drop (i + 1) := by
      simpa using List.drop_eq_getElem_cons hi
    rw [hdrop]
    simp only [scopedCalls_cons, List.get_eq_getElem, List.append_assoc,
      List.singleton_append]

lemma emitP2_plain (k : Nat) (ev p : Option Nat) (ls : List Nat) :
    ∀ (n i : Nat) (r : List (Nat × Entry)) (t : List (Nat × List (Option Nat))),
    listenersAt ⟨r, t⟩ k = ls.map Fn.plain → i + n = ls.length →
    emitP2 k ev p n i ⟨r, t⟩ = ⟨r, t ++ globalCalls ev p (ls.drop i)⟩ := by
  intro n
  induction n with
  | zero =>
    intro i r t hH hlen
    simp at hlen
    simp [hlen]
  | succ n ih =>
    intro i r t hH hlen
    have hi : i < ls.length := by omega
    have hi' : i < (listenersAt ⟨r, t⟩ k).length := by
      rw [hH]; simpa using hi
    rw [emitP2_succ]
    rw [dif_pos hi']
    have hget : (listenersAt ⟨r, t⟩ k).get ⟨i, hi'⟩ = Fn.plain (ls.get ⟨i, hi⟩) := by
      have := List.get_of_eq hH ⟨i, hi'⟩
      rw [this]
      simp
    rw [hget]
    show emitP2 k ev p n (i + 1) ⟨r, t ++ [(ls.get ⟨i, hi⟩, [ev, p])]⟩ = _
    rw [ih (i + 1) r (t ++ [(ls.get ⟨i, hi⟩, [ev, p])])
      (by rw [listenersAt_trace r _ t]; exact hH) (by omega)]
    have hdrop : ls.drop i = ls.get ⟨i, hi⟩ :: ls.drop (i + 1) := by
      simpa using List.drop_eq_getElem_cons hi
    rw [hdrop]
    simp only [globalCalls_cons, List.get_eq_getElem, List.append_assoc,
      List.singleton_append]

lemma emit_plain (k : Nat) (ev p : Option Nat) (ls : List Nat)
    (hm : List (Option Nat × List Nat)) (t : List (Nat × List (Option Nat))) :
    emit k ev p ⟨[(k, plainEntry ls hm)], t⟩ =
      ⟨[(k, plainEntry ls hm)],
        t ++ scopedCalls p ((agets hm ev).getD []) ++ globalCalls ev p ls⟩ := by
  have hrec : agets [(k, plainEntry ls hm)] k = some (plainEntry ls hm) := by simp
  have hhm : agets (plainEntry ls hm).handlerMap ev =
      (agets hm ev).map (fun ns => ns.map Fn.plain) := by
    simpa [plainEntry] using
      agets_map (fun ns => ns.map Fn.plain) hm ev
  have hlis : listenersAt ⟨[(k, plainEntry ls hm)], t⟩ k = ls.map Fn.plain := by
    simp [listenersAt, plainEntry]
  cases hev : agets hm ev with
  | none =>
    have hs1 : agets (plainEntry ls hm).handlerMap ev = none := by
      rw [hhm, hev]; rfl
    simp only [emit, hrec, hs1]
    rw [emitP2_plain k ev p ls _ 0 _ t hlis (by rw [hlis]; simp)]
    simp [hev]
  | some hs =>
    have hs1 : agets (plainEntry ls hm).handlerMap ev = some (hs.map Fn.plain) := by
      rw [hhm, hev]; rfl
    simp only [emit, hrec, hs1]
    have hH : handlersAt ⟨[(k, plainEntry ls hm)], t⟩ k ev = hs.map Fn.plain := by
      simp [handlersAt, hs1]
    rw [emitP1_plain k ev p hs _ 0 _ t hH (by simp)]
    rw [emitP2_plain k ev p ls _ 0 _ _
      (by rw [listenersAt_trace _ _ t]; exact hlis)
      (by rw [listenersAt_trace _ _ t, hlis]; simp)]
    simp [hev]

lemma emit_of_absent (k : Nat) (ev p : Option Nat) (s : St)
    (h : agets s.events k = none) : emit k ev p s = s := by
  rw [emit, h]

lemma runEmits_of_events_nil (k : Nat) :
    ∀ (es : List (Option Nat × Option Nat)) (t : List (Nat × List (Option Nat))),
    runEmits k es ⟨[], t⟩ = ⟨[], t⟩ := by
  intro es
  induction es with
  | nil => intro t; rfl
  | cons e es ih =>
    intro t
    obtain ⟨ev, p⟩ := e
    rw [runEmits, emit_of_absent k ev p _ (by simp)]
    exact ih t

/-- C1: the claim states that on(eventName, handler) appends the handler to
the existing handler sequence for that event name, so that two scoped handlers
H1, H2 registered in that order on the same event name are both invoked by
emit, in registration order.  The code instead reads the existing sequence
with handlerMap.get(key), the bus identifier, before storing under the event
name, so on a bus with identifier 0 the second registration on event name 1
finds no sequence and overwrites the first handler: after registering plain 1
and then plain 2 on event 1, the stored sequence is [plain 2] alone and emit
invokes only plain 2. -/
theorem C1_scoped_on_overwrites_bug :
    handlersAt (on2 0 (some 1) (.plain 2) (on2 0 (some 1) (.plain 1) init)) 0 (some 1)
      = [.plain 2]
    ∧ (emit 0 (some 1) (some 7)
        (on2 0 (some 1) (.plain 2) (on2 0 (some 1) (.plain 1) init))).trace
      = [(2, [some 7])] := by decide

/-- C2: the claim states that removing the last global listener while scoped
handlers remain keeps the Bus Entry (and symmetrically), the entry being
present iff some listener or handler remains.  The code deletes the whole
entry as soon as the listeners array is empty, ignoring the handler map (and
as soon as the handler map is empty, ignoring the listeners): with global
listener plain 1 and scoped handler plain 5 on event 2, off(plain 1) deletes
the entry, a following emit of event 2 invokes nothing, and symmetrically
off(2, plain 5) deletes the entry while plain 1 is still registered. -/
theorem C2_off_deletes_entry_with_survivors_bug :
    agets (off1 0 (.plain 1)
      (on2 0 (some 2) (.plain 5) (on1 0 (.plain 1) init))).events 0 = none
    ∧ (emit 0 (some 2) (some 9)
        (off1 0 (.plain 1)
          (on2 0 (some 2) (.plain 5) (on1 0 (.plain 1) init)))).trace = []
    ∧ agets (off2 0 (some 2) (.plain 5)
        (on2 0 (some 2) (.plain 5) (on1 0 (.plain 1) init))).events 0 = none := by decide

/-- C3: the claim states that off with a listener or handler that is not
registered leaves the registry unchanged.  The code, after failing to find the
function, still applies its emptiness checks: off(event, handler) on an entry
whose handler map is empty deletes the whole entry (discarding the global
listener plain 1), and off(listener) on an entry whose listeners array is
empty deletes the whole entry (discarding the scoped handler plain 5). -/
theorem C3_off_not_found_mutates_bug :
    (on1 0 (.plain 1) init).events = [(0, ⟨[.plain 1], []⟩)]
    ∧ (off2 0 (some 2) (.plain 9) (on1 0 (.plain 1) init)).events = []
    ∧ (on2 0 (some 2) (.plain 5) init).events = [(0, ⟨[], [(some 2, [.plain 5])]⟩)]
    ∧ (off1 0 (.plain 3) (on2 0 (some 2) (.plain 5) init)).events = [] := by decide

/-- C4: emit first invokes every scoped handler stored under the emitted
event name, in insertion order, passing the payload alone, then every global
listener in insertion order, passing the event name and the payload, and never
the handlers stored under a different event name: over an entry of plain
functions with listener ids ls, handler ids hs under ev and os under a
different name ev2, the trace grows by exactly the hs calls with [p] followed
by the ls calls with [ev, p].  The concrete claim scenario is included: after
on(plain 1) and on(10, plain 2), emitting event 10 with payload 5 calls
plain 2 with the payload and then plain 1 with the pair, and emitting event 11
afterwards calls only plain 1. -/
theorem C4_emit_order (k : Nat) (ev ev2 p : Option Nat) (ls hs os : List Nat)
    (t : List (Nat × List (Option Nat))) (hne : ev2 ≠ ev) :
    (emit k ev p ⟨[(k, plainEntry ls [(ev, hs), (ev2, os)])], t⟩).trace
      = t ++ scopedCalls p hs ++ globalCalls ev p ls
    ∧ (emit 0 (some 10) (some 5)
        (on2 0 (some 10) (.plain 2) (on1 0 (.plain 1) init))).trace
      = [(2, [some 5]), (1, [some 10, some 5])]
    ∧ (emit 0 (some 11) (some 6)
        (emit 0 (some 10) (some 5)
          (on2 0 (some 10) (.plain 2) (on1 0 (.plain 1) init)))).trace
      = [(2, [some 5]), (1, [some 10, some 5]), (1, [some 11, some 6])] := by
  refine ⟨?_, by decide, by decide⟩
  rw [emit_plain]
  simp

/-- Witness for C4 at concrete inputs. -/
theorem C4_emit_order_witness :
    (some 11 : Option Nat) ≠ some 10
    ∧ (emit 0 (some 10) (some 5)
        ⟨[(0, plainEntry [1] [(some 10, [2]), (some 11, [3])])], []⟩).trace
      = [] ++ scopedCalls (some 5) [2] ++ globalCalls (some 10) (some 5) [1] :=
  ⟨by decide,
    (C4_emit_order 0 (some 10) (some 11) (some 5) [1] [2] [3] [] (by decide)).1⟩

/-- C7: two handles created with equal identifiers operate on the same shared
Bus Entry, because every handle operation is a function of the identifier and
the shared registry alone: subscribing a listener through a handle on
identifier k and emitting through any handle on the same identifier invokes
the listener. -/
theorem C7_shared_identifier (k n : Nat) (ev p : Option Nat) :
    (emit k ev p (on1 k (.plain n) init)).trace = [(n, [ev, p])] := by
  have h1 : on1 k (.plain n) init = ⟨[(k, plainEntry [n] [])], []⟩ := rfl
  rw [h1, emit_plain]
  simp

/-- C8: reset unconditionally deletes the Bus Entry of the identifier, so no
entry remains, reset is idempotent, resetting an identifier with no entry
leaves the state unchanged, and any emit after a reset invokes nothing. -/
theorem C8_reset_clears (k : Nat) (ev p : Option Nat) (s : St) :
    agets (reset k s).events k = none
    ∧ reset k (reset k s) = reset k s
    ∧ (agets s.events k = none → reset k s = s)
    ∧ emit k ev p (reset k s) = reset k s := by
  refine ⟨agets_adel_self _ _, ?_, ?_, ?_⟩
  · show (⟨adel (adel s.events k) k, s.trace⟩ : St) = ⟨adel s.events k, s.trace⟩
    rw [adel_of_agets_none _ _ (agets_adel_self _ _)]
  · intro h
    show (⟨adel s.events k, s.trace⟩ : St) = s
    rw [adel_of_agets_none _ _ h]
  · exact emit_of_absent _ _ _ _ (agets_adel_self _ _)

/-- Witness for C8: resetting the fresh registry, which has no entry, is a
no-op. -/
theorem C8_reset_clears_witness :
    agets (init : St).events 0 = none ∧ reset 0 init = init :=
  ⟨by decide, (C8_reset_clears 0 none none init).2.2.1 (by decide)⟩

/-- C9: emitting with an omitted event name (undefined, modelled as none)
invokes the scoped handlers stored under the undefined key, if any, then the
global listeners, and never the handlers stored under a named event: over a
plain entry the trace grows by exactly the undefined-key handler calls and
the listener calls, and when only a named mapping exists the trace grows by
the listener calls alone. -/
theorem C9_emit_undefined_key (k m : Nat) (p : Option Nat) (ls hs os : List Nat)
    (t : List (Nat × List (Option Nat))) :
    (emit k none p ⟨[(k, plainEntry ls [(none, hs), (some m, os)])], t⟩).trace
      = t ++ scopedCalls p hs ++ globalCalls none p ls
    ∧ (emit k none p ⟨[(k, plainEntry ls [(some m, os)])], t⟩).trace
      = t ++ globalCalls none p ls := by
  constructor
  · rw [emit_plain]
    simp
  · rw [emit_plain]
    simp

lemma once_emit_step (k h : Nat) (ev1 p1 : Option Nat) :
    emit k ev1 p1 (once1 k (.plain h) init) = ⟨[], [(h, [ev1, p1])]⟩ := by
  show emit k ev1 p1 ⟨[(k, ⟨[Fn.onceG k (Fn.plain h)], []⟩)], []⟩ = _
  have h1 : agets [(k, (⟨[Fn.onceG k (Fn.plain h)], []⟩ : Entry))] k
      = some ⟨[Fn.onceG k (Fn.plain h)], []⟩ := by simp
  simp only [emit, h1]
  show emitP2 k ev1 p1
    (listenersAt ⟨[(k, ⟨[Fn.onceG k (Fn.plain h)], []⟩)], []⟩ k).length 0
    ⟨[(k, ⟨[Fn.onceG k (Fn.plain h)], []⟩)], []⟩ = _
  have h2 : listenersAt ⟨[(k, ⟨[Fn.onceG k (Fn.plain h)], []⟩)], []⟩ k
      = [Fn.onceG k (Fn.plain h)] := by simp [listenersAt]
  rw [h2]
  show emitP2 k ev1 p1 (0 + 1) 0 ⟨[(k, ⟨[Fn.onceG k (Fn.plain h)], []⟩)], []⟩ = _
  rw [emitP2_succ, h2]
  have h3 : (0 : Nat) < ([Fn.onceG k (Fn.plain h)]).length := by simp
  rw [dif_pos h3]
  show emitP2 k ev1 p1 0 1
    (invoke (Fn.plain h) [ev1, p1]
      (off1 k (Fn.onceG k (Fn.plain h))
        ⟨[(k, ⟨[Fn.onceG k (Fn.plain h)], []⟩)], []⟩)) = _
  have h4 : off1 k (Fn.onceG k (Fn.plain h))
      ⟨[(k, ⟨[Fn.onceG k (Fn.plain h)], []⟩)], []⟩ = ⟨[], []⟩ := by
    simp only [off1, h1]
    simp [removeFirst, adel]
  rw [h4]
  rfl

/-- C5: once registers an adapter through on; the adapter, on invocation,
first removes itself via the matching off call shape on its bus key and then
invokes the original with the same argument list it received; and the original
fires at most once: after once(plain h) on a fresh bus, running any sequence
of emit calls records exactly min (number of emits) 1 invocations of plain h,
so two emits of the matching event invoke it exactly once. -/
theorem C5_once_at_most_once (k h : Nat) (f : Fn) (ev p : Option Nat)
    (argv : List (Option Nat)) (s : St) (es : List (Option Nat × Option Nat)) :
    once1 k f s = on1 k (.onceG k f) s
    ∧ once2 k ev f s = on2 k ev (.onceS k ev f) s
    ∧ invoke (.onceG k f) argv s = invoke f argv (off1 k (.onceG k f) s)
    ∧ invoke (.onceS k ev f) argv s = invoke f argv (off2 k ev (.onceS k ev f) s)
    ∧ traceCount h (runEmits k es (once1 k (.plain h) init)) = min es.length 1 := by
  refine ⟨rfl, rfl, rfl, rfl, ?_⟩
  cases es with
  | nil => simp [runEmits, once1, on1, init, traceCount]
  | cons e es' =>
    obtain ⟨ev1, p1⟩ := e
    rw [runEmits, once_emit_step, runEmits_of_events_nil]
    rw [Nat.min_eq_right
      (by simpa using Nat.succ_le_succ (Nat.zero_le es'.length) :
        1 ≤ (((ev1, p1) :: es').length))]
    simp [traceCount]

/-- C6: the function returned by on performs the equivalent off call with the
exact same arguments: in the model the unsubscribe closure returned by
on(listener) is exactly off with that listener, applied when invoked.  But the
claim that a second invocation after the listener is already removed is a
no-op that leaves the registry unchanged fails on the code: after on(plain 1),
one unsubscribe call (which removes the listener and the entry), and a later
registration of scoped handler plain 5 under event 2, a second unsubscribe
call deletes the whole rebuilt entry, wiping the unrelated handler plain 5,
because off deletes any entry whose listeners array is empty without checking
the handler map. -/
theorem C6_unsubscribe_not_idempotent_bug :
    off1 0 (.plain 1) (on1 0 (.plain 1) init) = init
    ∧ (on2 0 (some 2) (.plain 5) (off1 0 (.plain 1) (on1 0 (.plain 1) init))).events
      = [(0, ⟨[], [(some 2, [.plain 5])]⟩)]
    ∧ (off1 0 (.plain 1)
        (on2 0 (some 2) (.plain 5)
          (off1 0 (.plain 1) (on1 0 (.plain 1) init)))).events
      = [] := by decide

lemma regWK_of_agets (k : Nat) (s : St) (hw : regWK k s) (r : Entry)
    (hr : agets s.events k = some r) : entryWK k r :=
  hw (k, r) (agets_mem _ _ _ hr) rfl

lemma hmWK_aset (k : Nat) (hm : List (Option Nat × List Fn)) (ev : Option Nat)
    (v : List Fn) (hbase : hmWK k hm) (hv : ∀ f ∈ v, wellKeyed k f = true) :
    hmWK k (aset hm ev v) := by
  intro q hq
  rcases mem_aset _ _ _ _ hq with hmem | heq
  · exact hbase q hmem
  · subst heq
    exact hv

lemma hmWK_adel (k : Nat) (hm : List (Option Nat × List Fn)) (ev : Option Nat)
    (hbase : hmWK k hm) : hmWK k (adel hm ev) :=
  fun q hq => hbase q (mem_adel _ _ _ hq)

lemma off1_frame (k k2 : Nat) (hk : k2 ≠ k) (l : Fn) (s : St) :
    agets (off1 k l s).events k2 = agets s.events k2 := by
  cases hr : agets s.events k with
  | none => simp only [off1, hr]
  | some rec0 =>
    simp only [off1, hr]
    split
    · exact agets_adel_ne _ _ _ hk
    · exact agets_aset_ne _ _ _ _ hk

lemma off2_frame (k k2 : Nat) (hk : k2 ≠ k) (ev : Option Nat) (h : Fn) (s : St) :
    agets (off2 k ev h s).events k2 = agets s.events k2 := by
  cases hr : agets s.events k with
  | none => simp only [off2, hr]
  | some rec0 =>
    simp only [off2, hr]
    repeat' split
    all_goals first
      | exact agets_adel_ne _ _ _ hk
      | exact agets_aset_ne _ _ _ _ hk

lemma regWK_off1 (k : Nat) (l : Fn) (s : St) (hw : regWK k s) :
    regWK k (off1 k l s) := by
  cases hr : agets s.events k with
  | none =>
    have heq : off1 k l s = s := by simp only [off1, hr]
    rwa [heq]
  | some rec0 =>
    have h0 := regWK_of_agets k s hw rec0 hr
    simp only [off1, hr]
    split
    · intro q hq hqk
      exact hw q (mem_adel _ _ _ hq) hqk
    · intro q hq hqk
      rcases mem_aset _ _ _ _ hq with hmem | heq
      · exact hw q hmem hqk
      · subst heq
        exact ⟨fun f hf => h0.1 f (removeFirst_subset _ _ _ hf), h0.2⟩

lemma regWK_off2 (k : Nat) (ev : Option Nat) (h : Fn) (s : St) (hw : regWK k s) :
    regWK k (off2 k ev h s) := by
  cases hr : agets s.events k with
  | none =>
    have heq : off2 k ev h s = s := by simp only [off2, hr]
    rwa [heq]
  | some rec0 =>
    have h0 := regWK_of_agets k s hw rec0 hr
    have hhs0 : ∀ f ∈ removeFirst ((agets rec0.handlerMap ev).getD []) h,
        wellKeyed k f = true := by
      intro f hf
      have hf2 := removeFirst_subset _ _ _ hf
      cases hg : agets rec0.handlerMap ev with
      | none =>
        rw [hg] at hf2
        exact absurd hf2 (List.not_mem_nil f)
      | some hs =>
        rw [hg] at hf2
        exact h0.2 (ev, hs) (agets_mem _ _ _ hg) f hf2
    simp only [off2, hr]
    repeat' split
    all_goals intro q hq hqk
    all_goals first
      | exact hw q (mem_adel _ _ _ hq) hqk
      | (rcases mem_aset _ _ _ _ hq with hmem | heq
         · exact hw q hmem hqk
         · subst heq
           refine ⟨h0.1, ?_⟩
           first
             | exact hmWK_adel _ _ _ (hmWK_aset _ _ _ _ h0.2 hhs0)
             | exact hmWK_adel _ _ _ h0.2
             | exact hmWK_aset _ _ _ _ h0.2 hhs0
             | exact h0.2)

lemma invoke_frame (k k2 : Nat) (hk : k2 ≠ k) :
    ∀ (f : Fn), wellKeyed k f = true → ∀ (argv : List (Option Nat)) (s : St),
    agets (invoke f argv s).events k2 = agets s.events k2 := by
  intro f
  induction f with
  | plain n =>
    intro _ argv s
    rfl
  | onceG k3 g ih =>
    intro hwf argv s
    simp only [wellKeyed, Bool.and_eq_true, decide_eq_true_eq] at hwf
    obtain ⟨hk3, hwg⟩ := hwf
    show agets (invoke g argv (off1 k3 (Fn.onceG k3 g) s)).events k2 = _
    rw [ih hwg argv (off1 k3 (Fn.onceG k3 g) s), hk3]
    exact off1_frame k k2 hk _ s
  | onceS k3 ev g ih =>
    intro hwf argv s
    simp only [wellKeyed, Bool.and_eq_true, decide_eq_true_eq] at hwf
    obtain ⟨hk3, hwg⟩ := hwf
    show agets (invoke g argv (off2 k3 ev (Fn.onceS k3 ev g) s)).events k2 = _
    rw [ih hwg argv (off2 k3 ev (Fn.onceS k3 ev g) s), hk3]
    exact off2_frame k k2 hk ev _ s

lemma invoke_regWK (k : Nat) :
    ∀ (f : Fn), wellKeyed k f = true → ∀ (argv : List (Option Nat)) (s : St),
    regWK k s → regWK k (invoke f argv s) := by
  intro f
  induction f with
  | plain n =>
    intro _ argv s hw
    intro q hq hqk
    exact hw q hq hqk
  | onceG k3 g ih =>
    intro hwf argv s hw
    simp only [wellKeyed, Bool.and_eq_true, decide_eq_true_eq] at hwf
    obtain ⟨hk3, hwg⟩ := hwf
    rw [hk3]
    exact ih hwg argv _ (regWK_off1 k _ s hw)
  | onceS k3 ev g ih =>
    intro hwf argv s hw
    simp only [wellKeyed, Bool.and_eq_true, decide_eq_true_eq] at hwf
    obtain ⟨hk3, hwg⟩ := hwf
    rw [hk3]
    exact ih hwg argv _ (regWK_off2 k ev _ s hw)

lemma handlersAt_wk (k : Nat) (ev : Option Nat) (s : St) (hw : regWK k s) :
    ∀ f ∈ handlersAt s k ev, wellKeyed k f = true := by
  intro f hf
  simp only [handlersAt] at hf
  cases hr : agets s.events k with
  | none =>
    rw [hr] at hf
    exact absurd hf (List.not_mem_nil f)
  | some r =>
    rw [hr] at hf
    have hf2 : f ∈ (agets r.handlerMap ev).getD [] := hf
    cases hg : agets r.handlerMap ev with
    | none =>
      rw [hg] at hf2
      exact absurd hf2 (List.not_mem_nil f)
    | some hs =>
      rw [hg] at hf2
      exact (regWK_of_agets k s hw r hr).2 (ev, hs) (agets_mem _ _ _ hg) f hf2

lemma listenersAt_wk (k : Nat) (s : St) (hw : regWK k s) :
    ∀ f ∈ listenersAt s k, wellKeyed k f = true := by
  intro f hf
  simp only [listenersAt] at hf
  cases hr : agets s.events k with
  | none =>
    rw [hr] at hf
    exact absurd hf (List.not_mem_nil f)
  | some r =>
    rw [hr] at hf
    exact (regWK_of_agets k s hw r hr).1 f hf

lemma emitP1_frame (k k2 : Nat) (hk : k2 ≠ k) (ev p : Option Nat) :
    ∀ (n i : Nat) (s : St), regWK k s →
    agets (emitP1 k ev p n i s).events k2 = agets s.events k2
    ∧ regWK k (emitP1 k ev p n i s) := by
  intro n
  induction n with
  | zero =>
    intro i s hw
    exact ⟨rfl, hw⟩
  | succ n ih =>
    intro i s hw
    rw [emitP1_succ]
    by_cases hlt : i < (handlersAt s k ev).length
    · rw [dif_pos hlt]
      have hfwk : wellKeyed k ((handlersAt s k ev).get ⟨i, hlt⟩) = true :=
        handlersAt_wk k ev s hw _ (List.get_mem _ _ hlt)
      have h2 := invoke_regWK k _ hfwk [p] s hw
      obtain ⟨ha, hb⟩ := ih (i + 1) _ h2
      exact ⟨ha.trans (invoke_frame k k2 hk _ hfwk [p] s), hb⟩
    · rw [dif_neg hlt]
      exact ih (i + 1) s hw

lemma emitP2_frame (k k2 : Nat) (hk : k2 ≠ k) (ev p : Option Nat) :
    ∀ (n i : Nat) (s : St), regWK k s →
    agets (emitP2 k ev p n i s).events k2 = agets s.events k2
    ∧ regWK k (emitP2 k ev p n i s) := by
  intro n
  induction n with
  | zero =>
    intro i s hw
    exact ⟨rfl, hw⟩
  | succ n ih =>
    intro i s hw
    rw [emitP2_succ]
    by_cases hlt : i < (listenersAt s k).length
    · rw [dif_pos hlt]
      have hfwk : wellKeyed k ((listenersAt s k).get ⟨i, hlt⟩) = true :=
        listenersAt_wk k s hw _ (List.get_mem _ _ hlt)
      have h2 := invoke_regWK k _ hfwk [ev, p] s hw
      obtain ⟨ha, hb⟩ := ih (i + 1) _ h2
      exact ⟨ha.trans (invoke_frame k k2 hk _ hfwk [ev, p] s), hb⟩
    · rw [dif_neg hlt]
      exact ih (i + 1) s hw

lemma emit_frame (k k2 : Nat) (hk : k2 ≠ k) (ev p : Option Nat) (s : St)
    (hw : regWK k s) :
    agets (emit k ev p s).events k2 = agets s.events k2 := by
  cases hr : agets s.events k with
  | none => rw [emit_of_absent k ev p s hr]
  | some rec0 =>
    cases hg : agets rec0.handlerMap ev with
    | none =>
      simp only [emit, hr, hg]
      exact (emitP2_frame k k2 hk ev p _ 0 s hw).1
    | some hs =>
      simp only [emit, hr, hg]
      have h1 := emitP1_frame k k2 hk ev p hs.length 0 s hw
      exact (emitP2_frame k k2 hk ev p _ 0 _ h1.2).1.trans h1.1

/-- C10: every operation of a handle on identifier k (both on shapes, both
once shapes, both off shapes, emit, reset) leaves the registry entry of every
other identifier k2 unchanged.  For emit this requires that the once adapters
stored on bus k captured the key k, which is how the source alone can build
states (an adapter is registered on the very bus whose once created it). -/
theorem C10_key_isolation (k k2 : Nat) (hk : k2 ≠ k) (l h : Fn)
    (ev p : Option Nat) (s : St) (hw : regWK k s) :
    agets (on1 k l s).events k2 = agets s.events k2
    ∧ agets (on2 k ev h s).events k2 = agets s.events k2
    ∧ agets (once1 k l s).events k2 = agets s.events k2
    ∧ agets (once2 k ev h s).events k2 = agets s.events k2
    ∧ agets (off1 k l s).events k2 = agets s.events k2
    ∧ agets (off2 k ev h s).events k2 = agets s.events k2
    ∧ agets (reset k s).events k2 = agets s.events k2
    ∧ agets (emit k ev p s).events k2 = agets s.events k2 :=
  ⟨agets_aset_ne _ _ _ _ hk, agets_aset_ne _ _ _ _ hk,
    agets_aset_ne _ _ _ _ hk, agets_aset_ne _ _ _ _ hk,
    off1_frame k k2 hk l s, off2_frame k k2 hk ev h s,
    agets_adel_ne _ _ _ hk, emit_frame k k2 hk ev p s hw⟩

/-- Witness for C10: on a bus holding a once adapter for key 0, emitting on
key 0 leaves the entry of key 1 unchanged. -/
theorem C10_key_isolation_witness :
    (1 : Nat) ≠ 0 ∧ regWK 0 (once1 0 (.plain 7) init)
    ∧ agets (emit 0 none none (once1 0 (.plain 7) init)).events 1
      = agets (once1 0 (.plain 7) init).events 1 :=
  ⟨by decide, by decide,
    (C10_key_isolation 0 1 (by decide) (.plain 3) (.plain 4) none none
      (once1 0 (.plain 7) init) (by decide)).2.2.2.2.2.2.2⟩

end UseEventBus
